import Mathlib

/-!
Verification of the editing core of the zim terminal text editor.

The development shallowly embeds the Rust sources: strings are modelled at
character granularity as lists of characters (the spec fixes UTF-8
scalar-value granularity for the core), a Row's derived render field is
always an exact copy of its chars field after every mutation and is
therefore not carried separately, fallible operations return a Bool or an
Option alongside the new state, and the clipboard mirror is an external
side effect that never changes editor state, so it is omitted.  The u16
cursor arithmetic is modelled on Nat with explicit wrap-around modulo
65536 where the Rust release-mode semantics wraps.
-/

namespace Zim

/-- Position in the file, 0-indexed row and column (cursor.rs).  Rust
derives lexicographic ordering from the field order (row, then col). -/
structure Position where
  row : Nat
  col : Nat
deriving DecidableEq, Repr

/-- Lexicographic comparison derived for Position in the source
(PartialOrd/Ord derive: row-major, then column). -/
def Position.lexLe (a b : Position) : Bool :=
  decide (a.row < b.row) || (decide (a.row = b.row) && decide (a.col ≤ b.col))

/-- One buffer row.  The source keeps a chars string and a render string,
with render re-derived as an exact copy of chars after every mutation
(tab expansion is an unimplemented TODO), so a row is faithfully
represented by its character sequence. -/
abbrev Row := List Char

/-- Row::insert_char (buffer.rs): insert ch at index i if i <= len,
otherwise silently ignore. -/
def Row.insert_char (r : Row) (i : Nat) (ch : Char) : Row :=
  if i ≤ r.length then r.take i ++ ch :: r.drop i else r

/-- Row::insert_str (buffer.rs): insert the string s at index i if
i <= len, otherwise silently ignore. -/
def Row.insert_str (r : Row) (i : Nat) (s : List Char) : Row :=
  if i ≤ r.length then r.take i ++ s ++ r.drop i else r

/-- Row::delete_char (buffer.rs): remove and return the character at
index i when i < len, else return None and leave the row unchanged. -/
def Row.delete_char (r : Row) (i : Nat) : Row × Option Char :=
  match r.get? i with
  | some c => (r.eraseIdx i, some c)
  | none => (r, none)

/-- Row::split_off (buffer.rs): when i <= len, keep the first i
characters and return the tail; otherwise return an empty tail and keep
the row unchanged. -/
def Row.split_off (r : Row) (i : Nat) : Row × Row :=
  if i ≤ r.length then (r.take i, r.drop i) else (r, [])

/-- Row::append (buffer.rs). -/
def Row.append (r : Row) (s : List Char) : Row :=
  r ++ s

/-- Buffer (buffer.rs): an ordered sequence of rows. -/
abbrev Buffer := List Row

/-- Buffer::insert_row (buffer.rs): insert at index i if i <= len,
otherwise silently ignore. -/
def Buffer.insert_row (b : Buffer) (i : Nat) (text : Row) : Buffer :=
  if i ≤ b.length then b.take i ++ text :: b.drop i else b

/-- Buffer::delete_row (buffer.rs): remove row i if i < len, else
silently ignore. -/
def Buffer.delete_row (b : Buffer) (i : Nat) : Buffer :=
  if i < b.length then b.eraseIdx i else b

/-- Buffer::insert_char (buffer.rs): if row >= len first append one empty
row at the end, then insert into row at col when the row exists. -/
def Buffer.insert_char (b : Buffer) (row col : Nat) (ch : Char) : Buffer :=
  let b1 := if b.length ≤ row then Buffer.insert_row b b.length [] else b
  match b1.get? row with
  | some r => b1.set row (Row.insert_char r col ch)
  | none => b1

/-- Buffer::delete_char (buffer.rs): delegate to the row when it exists,
returning the removed character. -/
def Buffer.delete_char (b : Buffer) (row col : Nat) : Buffer × Option Char :=
  match b.get? row with
  | some r =>
    let rc := Row.delete_char r col
    (b.set row rc.1, rc.2)
  | none => (b, none)

/-- Buffer::insert_newline (buffer.rs): past the end appends an empty
row; otherwise splits row at col and inserts the tail as the next row. -/
def Buffer.insert_newline (b : Buffer) (row col : Nat) : Buffer :=
  if b.length ≤ row then Buffer.insert_row b b.length []
  else
    match b.get? row with
    | some r =>
      let ht := Row.split_off r col
      Buffer.insert_row (b.set row ht.1) (row + 1) ht.2
    | none => b

/-- Buffer::join_rows (buffer.rs): when 0 < row < len, remove row and
append its content onto the previous row; otherwise silently ignore. -/
def Buffer.join_rows (b : Buffer) (row : Nat) : Buffer :=
  if 0 < row ∧ row < b.length then
    let cur := (b.get? row).getD []
    let b2 := b.eraseIdx row
    match b2.get? (row - 1) with
    | some prev => b2.set (row - 1) (Row.append prev cur)
    | none => b2
  else b

/-- Buffer::delete_row_with_content (buffer.rs): remove row i and return
its content when i < len, else None. -/
def Buffer.delete_row_with_content (b : Buffer) (i : Nat) : Buffer × Option Row :=
  match b.get? i with
  | some r => (b.eraseIdx i, some r)
  | none => (b, none)

/-- Buffer::get_row_content (buffer.rs). -/
def Buffer.get_row_content (b : Buffer) (i : Nat) : Option Row :=
  b.get? i

/-- YankType (editor.rs): whether register content pastes in line or as
whole new lines. -/
inductive YankType where
  | InLine : YankType
  | NewLine : YankType
deriving DecidableEq, Repr

/-- YankManager (editor.rs): the single yank register. -/
structure YankManager where
  buffer : List Row
  yank_type : YankType
deriving DecidableEq, Repr

/-- YankManager::new (editor.rs). -/
def YankManager.new : YankManager :=
  { buffer := [], yank_type := YankType.InLine }

/-- YankManager::yank_inline (editor.rs): the register is overwritten
with a single in-line fragment. -/
def YankManager.yank_inline (_y : YankManager) (text : Row) : YankManager :=
  { buffer := [text], yank_type := YankType.InLine }

/-- YankManager::yank_line (editor.rs): the register is overwritten with
a single whole-line entry. -/
def YankManager.yank_line (_y : YankManager) (text : Row) : YankManager :=
  { buffer := [text], yank_type := YankType.NewLine }

/-- PasteDirection (editor.rs). -/
inductive PasteDirection where
  | Below : PasteDirection
  | Above : PasteDirection
deriving DecidableEq, Repr

/-- PasteResult (editor.rs). -/
inductive PasteResult where
  | Empty : PasteResult
  | InLine : PasteResult
  | Above : PasteResult
  | Below : PasteResult
deriving DecidableEq, Repr

/-- Editor (editor.rs).  The optional clipboard handle is omitted:
sync_to_clipboard only mirrors register content outward and never
changes editor state. -/
structure Editor where
  buffer : Buffer
  filename : Option (List Char)
  dirty : Bool
  ends_with_newline : Bool
  yank_manager : YankManager
deriving DecidableEq, Repr

/-- Editor::new (editor.rs). -/
def Editor.new : Editor :=
  { buffer := [], filename := none, dirty := false,
    ends_with_newline := true, yank_manager := YankManager.new }

/-- Editor::insert_char (editor.rs): pass through plus dirty flag. -/
def Editor.insert_char (e : Editor) (pos : Position) (ch : Char) : Editor :=
  { e with buffer := Buffer.insert_char e.buffer pos.row pos.col ch, dirty := true }

/-- Editor::delete_char (editor.rs): pass through plus dirty flag. -/
def Editor.delete_char (e : Editor) (pos : Position) : Editor :=
  { e with buffer := (Buffer.delete_char e.buffer pos.row pos.col).1, dirty := true }

/-- Editor::insert_newline (editor.rs): pass through plus dirty flag. -/
def Editor.insert_newline (e : Editor) (pos : Position) : Editor :=
  { e with buffer := Buffer.insert_newline e.buffer pos.row pos.col, dirty := true }

/-- Editor::join_rows (editor.rs): pass through plus dirty flag. -/
def Editor.join_rows (e : Editor) (row : Nat) : Editor :=
  { e with buffer := Buffer.join_rows e.buffer row, dirty := true }

/-- Editor::delete_char_at_cursor (editor.rs): delete only when the
column is within the line; on success the removed character becomes an
in-line yank and the editor is marked dirty. -/
def Editor.delete_char_at_cursor (e : Editor) (pos : Position) : Editor × Bool :=
  match e.buffer.get? pos.row with
  | some line =>
    if pos.col < line.length then
      let bc := Buffer.delete_char e.buffer pos.row pos.col
      let ym := match bc.2 with
        | some ch => YankManager.yank_inline e.yank_manager [ch]
        | none => e.yank_manager
      ({ e with buffer := bc.1, yank_manager := ym, dirty := true }, true)
    else (e, false)
  | none => (e, false)

/-- Editor::delete_line (editor.rs): dd, whole-line delete into the
register. -/
def Editor.delete_line (e : Editor) (row : Nat) : Editor × Bool :=
  match Buffer.delete_row_with_content e.buffer row with
  | (b2, some content) =>
    ({ e with buffer := b2,
              yank_manager := YankManager.yank_line e.yank_manager content,
              dirty := true }, true)
  | (_, none) => (e, false)

/-- Editor::yank_line (editor.rs): yy, whole-line copy into the register;
does not touch the dirty flag. -/
def Editor.yank_line (e : Editor) (row : Nat) : Editor × Bool :=
  match Buffer.get_row_content e.buffer row with
  | some content =>
    ({ e with yank_manager := YankManager.yank_line e.yank_manager content }, true)
  | none => (e, false)

/-- Editor::normalize_range (editor.rs): swap so that start <= end in the
lexicographic Position order. -/
def Editor.normalize_range (s e : Position) : Position × Position :=
  if Position.lexLe s e then (s, e) else (e, s)

/-- Editor::extract_range_text (editor.rs), translated faithfully: in the
multi-row branch the source indexes the buffer with norm_start.row for
every iteration of the loop (row_idx is only used in the comparisons that
choose which slice to take), so every produced line is sliced out of the
first selected row. -/
def Editor.extract_range_text (e : Editor) (start stop : Position) : List Row :=
  let ns := (Editor.normalize_range start stop).1
  let ne := (Editor.normalize_range start stop).2
  if ns.row = ne.row then
    match e.buffer.get? ns.row with
    | some row => [(row.drop ns.col).take (ne.col - ns.col + 1)]
    | none => []
  else
    (List.range (ne.row - ns.row + 1)).filterMap (fun k =>
      let row_idx := ns.row + k
      match e.buffer.get? ns.row with
      | some row =>
        some (if row_idx = ns.row then row.drop ns.col
              else if row_idx = ne.row then row.take (ne.col + 1)
              else row)
      | none => none)

/-- Editor::yank_range (editor.rs): a single extracted line is stored
in line; several extracted lines are each fed to yank_line in order
(yank_line overwrites the register on every call). -/
def Editor.yank_range (e : Editor) (start stop : Position) : Editor × Bool :=
  let yank_lines := Editor.extract_range_text e start stop
  if yank_lines.isEmpty then (e, false)
  else if yank_lines.length = 1 then
    ({ e with yank_manager := YankManager.yank_inline e.yank_manager yank_lines.headI }, true)
  else
    ({ e with yank_manager :=
        yank_lines.foldl (fun acc line => YankManager.yank_line acc line) e.yank_manager }, true)

/-- Helper for Editor::delete_range: the same-row branch repeatedly calls
Row::delete_char at the fixed start column, once per selected column. -/
def deleteCharsAt (r : Row) (col : Nat) : Nat → Row
  | 0 => r
  | n + 1 => deleteCharsAt (Row.delete_char r col).1 col n

/-- Helper for Editor::delete_range: the multi-row branch calls
Buffer::delete_row at the fixed index start.row + 1, once per removed
row. -/
def deleteRowsAt (b : Buffer) (i : Nat) : Nat → Buffer
  | 0 => b
  | n + 1 => deleteRowsAt (Buffer.delete_row b i) i n

/-- Editor::delete_range (editor.rs): yank first, then physically remove
the selection.  The same-row loop runs over start.col..=end.col; the
multi-row branch replaces the first row by its prefix, takes the tail of
the last row after end.col, deletes the interior and last rows, and
appends the tail onto the first row. -/
def Editor.delete_range (e : Editor) (start stop : Position) : Editor × Bool :=
  let yr := Editor.yank_range e start stop
  if !yr.2 then (yr.1, false)
  else
    let e1 := yr.1
    let ns := (Editor.normalize_range start stop).1
    let ne := (Editor.normalize_range start stop).2
    if ns.row = ne.row then
      match e1.buffer.get? ns.row with
      | some row =>
        let row2 := deleteCharsAt row ns.col (ne.col + 1 - ns.col)
        ({ e1 with buffer := e1.buffer.set ns.row row2, dirty := true }, true)
      | none => (e1, false)
    else
      let b1 := match e1.buffer.get? ns.row with
        | some fr => e1.buffer.set ns.row (fr.take ns.col)
        | none => e1.buffer
      let tail := match b1.get? ne.row with
        | some lr => lr.drop (ne.col + 1)
        | none => []
      let b2 := deleteRowsAt b1 (ns.row + 1) (ne.row - ns.row)
      let b3 := match b2.get? ns.row with
        | some fr => b2.set ns.row (Row.append fr tail)
        | none => b2
      ({ e1 with buffer := b3, dirty := true }, true)

/-- Editor::paste (editor.rs).  A NewLine register inserts each stored
line as a new row below or above the cursor row; an InLine register
splices the single fragment into the current row at col + 1 (Below) or
col (Above), clamped to the row length. -/
def Editor.paste (e : Editor) (pos : Position) (dir : PasteDirection) : Editor × PasteResult :=
  if e.yank_manager.buffer.isEmpty then (e, PasteResult.Empty)
  else if e.yank_manager.yank_type = YankType.NewLine then
    match dir with
    | PasteDirection.Below =>
      let b := e.yank_manager.buffer.enum.foldl
        (fun b il => Buffer.insert_row b (pos.row + il.1 + 1) il.2) e.buffer
      ({ e with buffer := b, dirty := true }, PasteResult.Below)
    | PasteDirection.Above =>
      let b := e.yank_manager.buffer.enum.foldl
        (fun b il => Buffer.insert_row b (pos.row + il.1) il.2) e.buffer
      ({ e with buffer := b, dirty := true }, PasteResult.Above)
  else
    let col := match dir with
      | PasteDirection.Below => pos.col + 1
      | PasteDirection.Above => pos.col
    match e.buffer.get? pos.row with
    | some r =>
      let safe_col := min col r.length
      let r2 := Row.insert_str r safe_col e.yank_manager.buffer.headI
      ({ e with buffer := e.buffer.set pos.row r2, dirty := true }, PasteResult.InLine)
    | none => (e, PasteResult.Empty)

/-- Helper for Rust str::lines: a line produced by splitting at a line
feed has a single trailing carriage return removed (the \x7br\x7dn form of a
line terminator). -/
def stripCr (l : List Char) : List Char :=
  if l.getLast? = some '\r' then l.dropLast else l

/-- Worker for Rust str::lines over the remaining input, carrying the
characters of the current line in reverse.  A line feed emits the current
line (with a trailing carriage return stripped); a final unterminated
line is emitted as is; a terminated final line leaves nothing behind. -/
def rustLinesAux : List Char → List Char → List (List Char)
  | acc, [] => if acc.isEmpty then [] else [acc.reverse]
  | acc, c :: rest =>
    if c = '\n' then stripCr acc.reverse :: rustLinesAux [] rest
    else rustLinesAux (c :: acc) rest

/-- Rust str::lines, as called by FileIO::open on the file content. -/
def rustLines (content : List Char) : List (List Char) :=
  rustLinesAux [] content

/-- FileIO::open (file_io.rs), abstracted over the bytes the filesystem
returns: records whether the content ends with a line feed, and inserts
one buffer row per produced line, in order. -/
def FileIo.open_content (content : List Char) : Buffer × Bool :=
  let ends_with_newline := content.getLast? = some '\n'
  let buffer :=
    if content.isEmpty then ([] : Buffer)
    else (rustLines content).enum.foldl
      (fun b il => Buffer.insert_row b il.1 il.2) ([] : Buffer)
  (buffer, ends_with_newline)

/-- Helper for FileIO::save: every row except the last is written with a
trailing line feed, the last row without one (mirroring the save loop
over the buffer rows). -/
def joinRowsNl : Buffer → List Char
  | [] => []
  | [r] => r
  | r :: rest => r ++ '\n' :: joinRowsNl rest

/-- FileIO::save (file_io.rs), abstracted to the bytes it writes: an
empty buffer writes a single line feed when the flag is set; otherwise
every row but the last is followed by a line feed, and the last row gets
one exactly when the flag is set. -/
def FileIo.save_content (b : Buffer) (ends_with_newline : Bool) : List Char :=
  if b.isEmpty then (if ends_with_newline then ['\n'] else [])
  else joinRowsNl b ++ (if ends_with_newline then ['\n'] else [])

/-- Editor::save (editor.rs): with no filename the call fails with a
distinct error; otherwise FileIO::save runs (its possible IO failure is
abstracted as the io_ok flag) and on success the dirty flag is cleared. -/
def Editor.save (e : Editor) (io_ok : Bool) : Editor × Bool :=
  match e.filename with
  | some _ => if io_ok then ({ e with dirty := false }, true) else (e, false)
  | none => (e, false)

/-- Editor::open_file (editor.rs), abstracted over the filesystem read
(none models an IO error): on success the buffer and trailing-newline
flag are replaced, the filename is recorded, and dirty resets to false;
the yank register is deliberately kept. -/
def Editor.open_file (e : Editor) (filename : List Char)
    (content : Option (List Char)) : Editor × Bool :=
  match content with
  | some s =>
    let be := FileIo.open_content s
    ({ e with buffer := be.1, filename := some filename, dirty := false,
              ends_with_newline := be.2 }, true)
  | none => (e, false)

/-- Editor::reload (editor.rs), abstracted over the filesystem read: with
no filename it fails; on a successful read the buffer and flag are
replaced and dirty resets to false. -/
def Editor.reload (e : Editor) (content : Option (List Char)) : Editor × Bool :=
  match e.filename with
  | some _ =>
    match content with
    | some s =>
      let be := FileIo.open_content s
      ({ e with buffer := be.1, dirty := false, ends_with_newline := be.2 }, true)
    | none => (e, false)
  | none => (e, false)

/-- Wrapping u16 addition (Rust release-mode overflow semantics). -/
def wadd (a b : Nat) : Nat := (a + b) % 65536

/-- Wrapping u16 subtraction for operands below 65536 (Rust release-mode
overflow semantics). -/
def wsub (a b : Nat) : Nat := (a + 65536 - b) % 65536

/-- Cursor (cursor.rs): 1-indexed screen coordinates x, y plus the scroll
offsets, all u16 fields. -/
structure Cursor where
  x : Nat
  y : Nat
  row_offset : Nat
  col_offset : Nat
deriving DecidableEq, Repr

/-- Cursor::scroll (cursor.rs), with u16 arithmetic made explicit: an
empty buffer resets y and row_offset; a file row past the last buffer row
snaps to the bottom (saturating subtraction for the new offset); a file
row above the window scrolls up, one below the window scrolls down
(saturating subtraction), and finally y is recomputed from the file row
and the offset. -/
def Cursor.scroll (c : Cursor) (editor_rows : Nat) (buffer_len : Nat) : Cursor :=
  if buffer_len = 0 then { c with y := 1, row_offset := 0 }
  else
    let file_row := wsub (wadd c.row_offset c.y) 1
    let last_row := (buffer_len - 1) % 65536
    if last_row < file_row then
      if last_row < editor_rows then
        { c with y := wadd last_row 1, row_offset := 0 }
      else
        let ro := last_row - (editor_rows - 1)
        { c with row_offset := ro, y := wadd (wsub last_row ro) 1 }
    else
      let ro1 := if file_row < c.row_offset then file_row else c.row_offset
      let ro2 := if wadd ro1 editor_rows ≤ file_row
                 then file_row - (editor_rows - 1) else ro1
      { c with row_offset := ro2, y := wadd (wsub file_row ro2) 1 }

/-- Mode (mode.rs). -/
inductive Mode where
  | Normal : Mode
  | Command : Mode
  | Insert : Mode
  | Visual : Mode
deriving DecidableEq, Repr

/-- ModeManager (mode.rs): current mode plus the Visual-mode anchor. -/
structure ModeManager where
  current : Mode
  visual_start : Option Position
deriving DecidableEq, Repr

/-- ModeManager::new (mode.rs). -/
def ModeManager.new : ModeManager :=
  { current := Mode.Normal, visual_start := none }

/-- ModeManager::enter_command (mode.rs). -/
def ModeManager.enter_command (m : ModeManager) : ModeManager :=
  { m with current := Mode.Command }

/-- ModeManager::enter_normal (mode.rs): only the current-mode field is
assigned. -/
def ModeManager.enter_normal (m : ModeManager) : ModeManager :=
  { m with current := Mode.Normal }

/-- ModeManager::enter_insert (mode.rs). -/
def ModeManager.enter_insert (m : ModeManager) : ModeManager :=
  { m with current := Mode.Insert }

/-- ModeManager::enter_visual (mode.rs): stores the anchor and switches
to Visual. -/
def ModeManager.enter_visual (m : ModeManager) (pos : Position) : ModeManager :=
  { m with visual_start := some pos, current := Mode.Visual }

/-- ModeManager::clear_visual (mode.rs). -/
def ModeManager.clear_visual (m : ModeManager) : ModeManager :=
  { m with visual_start := none }

/-- Rust str::is_char_boundary over the UTF-8 bytes of a string: index 0
is a boundary; past-the-bytes only the exact byte length is; an interior
index is a boundary exactly when the byte there is not a continuation
byte, that is below 0x80 or at least 0xC0. -/
def isCharBoundary (bytes : List Nat) (i : Nat) : Bool :=
  if i = 0 then true
  else
    match bytes.get? i with
    | none => decide (i = bytes.length)
    | some b => decide (b < 128) || decide (192 ≤ b)

/-- Byte-level model of Row::insert_char (buffer.rs): the guard compares
the index against String::len, which is the BYTE length of the chars
field, and the accepted call then reaches the byte-indexed
String::insert, which panics (modelled as none) when the index is not a
UTF-8 character boundary; an index above the byte length is silently
ignored as in the char-level model.  Row::insert_str, delete_char and
split_off guard and panic the same way through String::insert_str,
String::remove and String::split_off. -/
def Row.insert_char_bytes (bytes : List Nat) (i : Nat) (ch : List Nat) : Option (List Nat) :=
  if i ≤ bytes.length then
    if isCharBoundary bytes i then some (bytes.take i ++ ch ++ bytes.drop i)
    else none
  else some bytes

/-! Claim theorems. -/

/-- C10: for every position p, after enter_visual(p) followed by
enter_normal(), visual_start() still returns some p; enter_normal assigns
only the current-mode field (the anchor field is carried over unchanged
from any state), and only the explicit clear_visual() call resets the
stored anchor to none. -/
theorem enter_normal_keeps_visual_anchor (m : ModeManager) (p : Position) :
    (ModeManager.enter_normal (ModeManager.enter_visual m p)).visual_start = some p ∧
    (ModeManager.enter_normal (ModeManager.enter_visual m p)).current = Mode.Normal ∧
    (∀ m' : ModeManager, (ModeManager.enter_normal m').visual_start = m'.visual_start ∧
      (ModeManager.enter_normal m').current = Mode.Normal) ∧
    (ModeManager.clear_visual (ModeManager.enter_normal (ModeManager.enter_visual m p))).visual_start = none := by
  refine ⟨rfl, rfl, ?_, rfl⟩
  intro m'
  exact ⟨rfl, rfl⟩

/-- C1 (failing-input evaluation): on the two-row buffer ab / cd with the
selection (0,1)-(1,0), extract_range_text returns the suffix of the first
row followed by a slice of the FIRST row again (take end.col + 1 of row
0), because the multi-row loop indexes the buffer with norm_start.row
instead of row_idx; the claimed extraction (suffix of first row, then
inclusive prefix of the last row, here the character c) differs. -/
theorem extract_range_text_uses_first_row_only :
    Editor.extract_range_text
      { buffer := [['a','b'], ['c','d']], filename := none, dirty := false,
        ends_with_newline := true, yank_manager := YankManager.new }
      { row := 0, col := 1 } { row := 1, col := 0 }
      = [['b'], ['a']] ∧
    ([['b'], ['a']] : List Row) ≠ [['b'], ['c']] := by
  exact ⟨by decide, by decide⟩

/-- C2 (failing-input evaluation): on the same two-row buffer with the
selection (0,0)-(1,0) the extraction yields two lines, yet after
yank_range the register holds only the last extracted line, because
YankManager::yank_line overwrites the register buffer on every call of
the loop; the register is nevertheless NewLine-typed. -/
theorem yank_range_keeps_only_last_line :
    (Editor.extract_range_text
      { buffer := [['a','b'], ['c','d']], filename := none, dirty := false,
        ends_with_newline := true, yank_manager := YankManager.new }
      { row := 0, col := 0 } { row := 1, col := 0 }).length = 2 ∧
    (Editor.yank_range
      { buffer := [['a','b'], ['c','d']], filename := none, dirty := false,
        ends_with_newline := true, yank_manager := YankManager.new }
      { row := 0, col := 0 } { row := 1, col := 0 }).1.yank_manager
      = { buffer := [['a']], yank_type := YankType.NewLine } := by
  exact ⟨by decide, by decide⟩

/-- Yank operations never touch the dirty flag (helper). -/
theorem yank_range_preserves_dirty (e : Editor) (s t : Position) :
    (Editor.yank_range e s t).1.dirty = e.dirty := by
  unfold Editor.yank_range
  dsimp only
  split
  · rfl
  · split <;> rfl

/-- C9 counterexample: a successful open_file on a dirty editor resets
the dirty flag to false, so the flag does not become false only through
save. -/
theorem open_file_clears_dirty_without_save :
    (Editor.open_file
      { buffer := [['a']], filename := some ['f'], dirty := true,
        ends_with_newline := true, yank_manager := YankManager.new }
      ['f'] (some ['a','\n'])).1.dirty = false ∧
    (Editor.open_file
      { buffer := [['a']], filename := some ['f'], dirty := true,
        ends_with_newline := true, yank_manager := YankManager.new }
      ['f'] (some ['a','\n'])).2 = true ∧
    ({ buffer := [['a']], filename := some ['f'], dirty := true,
       ends_with_newline := true, yank_manager := YankManager.new } : Editor).dirty = true := by
  exact ⟨rfl, rfl, rfl⟩

/-- C9 (amended): every buffer-mutating operation sets the dirty flag
(insert_char, delete_char, insert_newline, join_rows unconditionally;
delete_char_at_cursor, delete_line, delete_range exactly on success;
paste exactly when its result is not Empty), pure yanks leave the flag
unchanged, a successful save clears it, and additionally a successful
open_file or reload also resets it to false. -/
theorem dirty_flag_discipline (e : Editor) (pos s t : Position) (row : Nat)
    (ch : Char) (dir : PasteDirection) (ok : Bool) (fn content : List Char) :
    (Editor.insert_char e pos ch).dirty = true ∧
    (Editor.delete_char e pos).dirty = true ∧
    (Editor.insert_newline e pos).dirty = true ∧
    (Editor.join_rows e row).dirty = true ∧
    (Editor.delete_char_at_cursor e pos).1.dirty
      = ((Editor.delete_char_at_cursor e pos).2 || e.dirty) ∧
    (Editor.delete_line e row).1.dirty = ((Editor.delete_line e row).2 || e.dirty) ∧
    (Editor.delete_range e s t).1.dirty = ((Editor.delete_range e s t).2 || e.dirty) ∧
    (Editor.paste e pos dir).1.dirty
      = (decide ((Editor.paste e pos dir).2 ≠ PasteResult.Empty) || e.dirty) ∧
    (Editor.yank_line e row).1.dirty = e.dirty ∧
    (Editor.yank_range e s t).1.dirty = e.dirty ∧
    (Editor.save e ok).1.dirty = (!(Editor.save e ok).2 && e.dirty) ∧
    (Editor.open_file e fn (some content)).1.dirty = false ∧
    (Editor.reload e (some content)).1.dirty = (!(Editor.reload e (some content)).2 && e.dirty) := by
  refine ⟨rfl, rfl, rfl, rfl, ?_, ?_, ?_, ?_, ?_, yank_range_preserves_dirty e s t, ?_, rfl, ?_⟩
  · unfold Editor.delete_char_at_cursor
    dsimp only
    split
    · split <;> simp
    · simp
  · unfold Editor.delete_line
    split <;> simp
  · unfold Editor.delete_range
    dsimp only
    split
    · simp [yank_range_preserves_dirty]
    · split
      · split <;> simp [yank_range_preserves_dirty]
      · simp
  · unfold Editor.paste
    split
    · simp
    · split
      · split <;> simp
      · split <;> split <;> simp
  · unfold Editor.yank_line
    unfold Buffer.get_row_content
    split <;> rfl
  · unfold Editor.save
    split
    · split <;> simp
    · simp
  · unfold Editor.reload
    split <;> simp

/-- C7 (failing-input evaluation): the TextBuffer layer does not return
normally on every argument: on the one-character row é, whose UTF-8
encoding is the two bytes 0xC3 0xA9, the byte-length guard of
Row::insert_char accepts index 1 (1 <= String::len() = 2), yet byte 1 is
a continuation byte and no character boundary, so the byte-indexed
String::insert panics (the none result of the byte-level model) instead
of inserting, clamping or ignoring.  Row::insert_str, delete_char and
split_off fail the same way on such indices. -/
theorem row_insert_char_panics_inside_multibyte :
    (1 ≤ ([195, 169] : List Nat).length) ∧
    isCharBoundary [195, 169] 1 = false ∧
    Row.insert_char_bytes [195, 169] 1 [120] = none := by
  refine ⟨by decide, by decide, by decide⟩

/-- C5: with the register holding a single InLine fragment, paste splices
the fragment into the cursor row at column pos.col + 1 for Below and at
pos.col for Above, the insertion column clamped to the row length; and on
the one-row buffer hello with the cursor at the origin, delete-char
followed by paste Below yields ehllo. -/
theorem paste_inline_splices_at_clamped_column (e : Editor) (pos : Position)
    (r frag : Row) (hr : e.buffer.get? pos.row = some r)
    (hy : e.yank_manager = { buffer := [frag], yank_type := YankType.InLine }) :
    ((Editor.paste e pos PasteDirection.Below).1.buffer
        = e.buffer.set pos.row
            (r.take (min (pos.col + 1) r.length) ++ frag
              ++ r.drop (min (pos.col + 1) r.length)) ∧
      (Editor.paste e pos PasteDirection.Below).2 = PasteResult.InLine) ∧
    ((Editor.paste e pos PasteDirection.Above).1.buffer
        = e.buffer.set pos.row
            (r.take (min pos.col r.length) ++ frag
              ++ r.drop (min pos.col r.length)) ∧
      (Editor.paste e pos PasteDirection.Above).2 = PasteResult.InLine) ∧
    (Editor.paste (Editor.delete_char_at_cursor
        { buffer := [['h','e','l','l','o']], filename := none, dirty := false,
          ends_with_newline := true, yank_manager := YankManager.new }
        { row := 0, col := 0 }).1
        { row := 0, col := 0 } PasteDirection.Below).1.buffer
      = [['e','h','l','l','o']] := by
  have hb : min (pos.col + 1) r.length ≤ r.length := Nat.min_le_right _ _
  have ha : min pos.col r.length ≤ r.length := Nat.min_le_right _ _
  have hr' : e.buffer[pos.row]? = some r := by
    rw [← List.get?_eq_getElem?]; exact hr
  refine ⟨⟨?_, ?_⟩, ⟨?_, ?_⟩, by decide⟩ <;>
    simp [Editor.paste, hy, hr', Row.insert_str, hb, ha]

/-- C5 witness: the paste equations instantiated on a one-row buffer hi
with the register holding the InLine fragment z and the cursor at the
origin. -/
theorem paste_inline_splices_at_clamped_column_witness :
    ({ buffer := [['h','i']], filename := none, dirty := false,
       ends_with_newline := true,
       yank_manager := { buffer := [['z']], yank_type := YankType.InLine } } : Editor).buffer.get?
        (({ row := 0, col := 0 } : Position).row) = some ['h','i'] ∧
    ({ buffer := [['h','i']], filename := none, dirty := false,
       ends_with_newline := true,
       yank_manager := { buffer := [['z']], yank_type := YankType.InLine } } : Editor).yank_manager
      = { buffer := [['z']], yank_type := YankType.InLine } ∧
    (((Editor.paste
        { buffer := [['h','i']], filename := none, dirty := false,
          ends_with_newline := true,
          yank_manager := { buffer := [['z']], yank_type := YankType.InLine } }
        { row := 0, col := 0 } PasteDirection.Below).1.buffer
        = ([['h','i']] : Buffer).set 0
            ((['h','i'] : Row).take (min (0 + 1) (['h','i'] : Row).length) ++ ['z']
              ++ (['h','i'] : Row).drop (min (0 + 1) (['h','i'] : Row).length)) ∧
      (Editor.paste
        { buffer := [['h','i']], filename := none, dirty := false,
          ends_with_newline := true,
          yank_manager := { buffer := [['z']], yank_type := YankType.InLine } }
        { row := 0, col := 0 } PasteDirection.Below).2 = PasteResult.InLine) ∧
    ((Editor.paste
        { buffer := [['h','i']], filename := none, dirty := false,
          ends_with_newline := true,
          yank_manager := { buffer := [['z']], yank_type := YankType.InLine } }
        { row := 0, col := 0 } PasteDirection.Above).1.buffer
        = ([['h','i']] : Buffer).set 0
            ((['h','i'] : Row).take (min 0 (['h','i'] : Row).length) ++ ['z']
              ++ (['h','i'] : Row).drop (min 0 (['h','i'] : Row).length)) ∧
      (Editor.paste
        { buffer := [['h','i']], filename := none, dirty := false,
          ends_with_newline := true,
          yank_manager := { buffer := [['z']], yank_type := YankType.InLine } }
        { row := 0, col := 0 } PasteDirection.Above).2 = PasteResult.InLine) ∧
    (Editor.paste (Editor.delete_char_at_cursor
        { buffer := [['h','e','l','l','o']], filename := none, dirty := false,
          ends_with_newline := true, yank_manager := YankManager.new }
        { row := 0, col := 0 }).1
        { row := 0, col := 0 } PasteDirection.Below).1.buffer
      = [['e','h','l','l','o']]) :=
  ⟨by decide, by decide,
    paste_inline_splices_at_clamped_column
      { buffer := [['h','i']], filename := none, dirty := false,
        ends_with_newline := true,
        yank_manager := { buffer := [['z']], yank_type := YankType.InLine } }
      { row := 0, col := 0 } ['h','i'] ['z'] (by decide) (by decide)⟩

/-- Helper: setting an index to the value it already holds leaves the
list unchanged. -/
theorem list_set_get?_self {α : Type} (l : List α) (i : Nat) (a : α)
    (h : l.get? i = some a) : l.set i a = l := by
  rw [List.get?_eq_getElem?] at h
  have hlt : i < l.length := by
    rcases List.getElem?_eq_some.mp h with ⟨hl, _⟩
    exact hl
  apply List.ext_getElem?
  intro n
  by_cases hn : i = n
  · subst hn
    rw [List.getElem?_set_self hlt, h]
  · rw [List.getElem?_set_ne hn]

/-- C8: inserting a character at an in-bounds position of the buffer and
deleting at the same position afterwards leaves the content of every
buffer row unchanged. -/
theorem insert_then_delete_char_roundtrip (b : Buffer) (row col : Nat) (ch : Char)
    (r : Row) (hr : b.get? row = some r) (hcol : col ≤ r.length) :
    (Buffer.delete_char (Buffer.insert_char b row col ch) row col).1 = b := by
  have hlen : row < b.length := by
    have h' := hr
    rw [List.get?_eq_getElem?] at h'
    rcases List.getElem?_eq_some.mp h' with ⟨hl, _⟩
    exact hl
  unfold Buffer.insert_char
  rw [if_neg (by omega)]
  dsimp only
  rw [hr]
  dsimp only
  unfold Row.insert_char
  rw [if_pos hcol]
  unfold Buffer.delete_char
  have hset : (b.set row (r.take col ++ ch :: r.drop col)).get? row
      = some (r.take col ++ ch :: r.drop col) := by
    rw [List.get?_eq_getElem?]
    exact List.getElem?_set_self hlen
  rw [hset]
  dsimp only
  unfold Row.delete_char
  have htklen : (r.take col).length = col := by
    rw [List.length_take]; omega
  have hgetcol : (r.take col ++ ch :: r.drop col).get? col = some ch := by
    rw [List.get?_eq_getElem?, List.getElem?_append_right htklen.le]
    simp [htklen]
  rw [hgetcol]
  dsimp only
  have herase : (r.take col ++ ch :: r.drop col).eraseIdx col = r := by
    rw [List.eraseIdx_eq_take_drop_succ]
    rw [List.take_append_eq_append_take, List.drop_append_eq_append_drop]
    rw [htklen]
    simp [List.take_take, List.drop_eq_nil_of_le, htklen]
  rw [herase, List.set_set]
  exact list_set_get?_self b row r hr

/-- C8 witness: the round trip evaluated on the two-character row ab at
position (0, 1) with the character z. -/
theorem insert_then_delete_char_roundtrip_witness :
    ([['a','b']] : Buffer).get? 0 = some ['a','b'] ∧
    1 ≤ (['a','b'] : Row).length ∧
    (Buffer.delete_char (Buffer.insert_char [['a','b']] 0 1 'z') 0 1).1 = [['a','b']] :=
  ⟨by decide, by decide,
    insert_then_delete_char_roundtrip [['a','b']] 0 1 'z' ['a','b'] (by decide) (by decide)⟩

/-- Helper: deleting n times at the fixed column col removes exactly the
characters at positions col..col+n-1 when they all exist. -/
theorem deleteCharsAt_spec (n : Nat) (r : Row) (col : Nat) (h : col + n ≤ r.length) :
    deleteCharsAt r col n = r.take col ++ r.drop (col + n) := by
  induction n generalizing r with
  | zero => simp [deleteCharsAt]
  | succ n ih =>
    have hcol : col < r.length := by omega
    have htk : (r.take col).length = col := by rw [List.length_take]; omega
    unfold deleteCharsAt Row.delete_char
    rcases hx : r.get? col with _ | c
    · exfalso
      rw [List.get?_eq_getElem?, List.getElem?_eq_none_iff] at hx
      omega
    · dsimp only
      rw [List.eraseIdx_eq_take_drop_succ]
      rw [ih _ (by simp [htk]; omega)]
      have h1 : (r.take col ++ r.drop (col + 1)).take col = r.take col := by
        rw [List.take_append_eq_append_take, htk, List.take_take]
        simp
      have h2 : (r.take col ++ r.drop (col + 1)).drop (col + n) = r.drop (col + (n + 1)) := by
        rw [List.drop_append_eq_append_drop, htk]
        rw [List.drop_eq_nil_of_le (by rw [htk]; omega), List.drop_drop]
        simp only [List.nil_append]
        congr 1
        omega
      rw [h1, h2]

/-- C6: on a single-row selection with columns inside the line and start
at or before the end column, yank_range stores exactly the inclusive
substring from start.col to end.col of that row as the single InLine
register entry without touching the buffer, and delete_range removes
exactly those characters from that row (every other row is unchanged). -/
theorem single_row_yank_and_delete_range (e : Editor) (r a bcol : Nat) (row : Row)
    (hrow : e.buffer.get? r = some row) (hab : a ≤ bcol) (hb : bcol < row.length) :
    (Editor.yank_range e ⟨r, a⟩ ⟨r, bcol⟩).1.yank_manager
        = { buffer := [(row.take (bcol + 1)).drop a], yank_type := YankType.InLine } ∧
    (Editor.yank_range e ⟨r, a⟩ ⟨r, bcol⟩).1.buffer = e.buffer ∧
    (Editor.delete_range e ⟨r, a⟩ ⟨r, bcol⟩).1.buffer
        = e.buffer.set r (row.take a ++ row.drop (bcol + 1)) ∧
    (Editor.delete_range e ⟨r, a⟩ ⟨r, bcol⟩).2 = true ∧
    (∀ j, j ≠ r →
      (Editor.delete_range e ⟨r, a⟩ ⟨r, bcol⟩).1.buffer.get? j = e.buffer.get? j) := by
  have hlex : Position.lexLe ⟨r, a⟩ ⟨r, bcol⟩ = true := by
    unfold Position.lexLe
    simp
    omega
  have hnorm : Editor.normalize_range ⟨r, a⟩ ⟨r, bcol⟩ = (⟨r, a⟩, ⟨r, bcol⟩) := by
    unfold Editor.normalize_range
    rw [if_pos hlex]
  have hslice : (row.drop a).take (bcol - a + 1) = (row.take (bcol + 1)).drop a := by
    rw [List.drop_take]
    congr 1
    omega
  have hex : Editor.extract_range_text e ⟨r, a⟩ ⟨r, bcol⟩
      = [(row.take (bcol + 1)).drop a] := by
    unfold Editor.extract_range_text
    rw [hnorm]
    dsimp only
    rw [if_pos rfl, hrow]
    dsimp only
    rw [hslice]
  have hyank : Editor.yank_range e ⟨r, a⟩ ⟨r, bcol⟩
      = ({ e with yank_manager :=
             { buffer := [(row.take (bcol + 1)).drop a]
               yank_type := YankType.InLine } }, true) := by
    unfold Editor.yank_range
    rw [hex]
    rfl
  have hdel : Editor.delete_range e ⟨r, a⟩ ⟨r, bcol⟩
      = ({ buffer := e.buffer.set r (row.take a ++ row.drop (bcol + 1))
           filename := e.filename
           dirty := true
           ends_with_newline := e.ends_with_newline
           yank_manager :=
             { buffer := [(row.take (bcol + 1)).drop a]
               yank_type := YankType.InLine } }, true) := by
    have hidx : a + (bcol + 1 - a) = bcol + 1 := by omega
    unfold Editor.delete_range
    rw [hyank, hnorm]
    dsimp only
    simp only [Bool.not_true, Bool.false_eq_true, if_false, if_true]
    rw [hrow]
    dsimp only
    rw [deleteCharsAt_spec _ _ _ (by omega), hidx]
  refine ⟨by rw [hyank], by rw [hyank], by rw [hdel], by rw [hdel], ?_⟩
  intro j hj
  rw [hdel]
  dsimp only
  rw [List.get?_eq_getElem?, List.get?_eq_getElem?]
  exact List.getElem?_set_ne (Ne.symm hj)

/-- C6 witness: the single-row selection (0,1)-(0,2) on the row abcd next
to an untouched second row. -/
theorem single_row_yank_and_delete_range_witness :
    ([['a','b','c','d'],['x']] : Buffer).get? 0 = some ['a','b','c','d'] ∧
    (1 : Nat) ≤ 2 ∧ 2 < (['a','b','c','d'] : Row).length ∧
    ((Editor.yank_range
      { buffer := [['a','b','c','d'],['x']], filename := none, dirty := false,
        ends_with_newline := true, yank_manager := YankManager.new }
      ⟨0, 1⟩ ⟨0, 2⟩).1.yank_manager
        = { buffer := [((['a','b','c','d'] : Row).take 3).drop 1],
            yank_type := YankType.InLine } ∧
    (Editor.yank_range
      { buffer := [['a','b','c','d'],['x']], filename := none, dirty := false,
        ends_with_newline := true, yank_manager := YankManager.new }
      ⟨0, 1⟩ ⟨0, 2⟩).1.buffer = [['a','b','c','d'],['x']] ∧
    (Editor.delete_range
      { buffer := [['a','b','c','d'],['x']], filename := none, dirty := false,
        ends_with_newline := true, yank_manager := YankManager.new }
      ⟨0, 1⟩ ⟨0, 2⟩).1.buffer
        = ([['a','b','c','d'],['x']] : Buffer).set 0
            ((['a','b','c','d'] : Row).take 1 ++ (['a','b','c','d'] : Row).drop 3) ∧
    (Editor.delete_range
      { buffer := [['a','b','c','d'],['x']], filename := none, dirty := false,
        ends_with_newline := true, yank_manager := YankManager.new }
      ⟨0, 1⟩ ⟨0, 2⟩).2 = true ∧
    (∀ j, j ≠ 0 →
      (Editor.delete_range
        { buffer := [['a','b','c','d'],['x']], filename := none, dirty := false,
          ends_with_newline := true, yank_manager := YankManager.new }
        ⟨0, 1⟩ ⟨0, 2⟩).1.buffer.get? j
        = ([['a','b','c','d'],['x']] : Buffer).get? j)) :=
  ⟨by decide, by decide, by decide,
    single_row_yank_and_delete_range
      { buffer := [['a','b','c','d'],['x']], filename := none, dirty := false,
        ends_with_newline := true, yank_manager := YankManager.new }
      0 1 2 ['a','b','c','d'] (by decide) (by decide) (by decide)⟩

/-- Helper: a line without a carriage return is unchanged by the
terminator strip. -/
theorem stripCr_of_not_mem (l : List Char) (h : '\r' ∉ l) : stripCr l = l := by
  unfold stripCr
  rw [if_neg]
  intro hx
  exact h (List.mem_of_getLast?_eq_some hx)

/-- Helper: the line splitter returns at least one line when the current
accumulator or the remaining input is nonempty. -/
theorem rustLinesAux_ne_nil (s : List Char) : ∀ acc : List Char,
    acc ≠ [] ∨ s ≠ [] → rustLinesAux acc s ≠ [] := by
  induction s with
  | nil =>
    intro acc h
    unfold rustLinesAux
    rcases h with h | h
    · rw [if_neg (by simpa using h)]
      simp
    · exact absurd rfl h
  | cons c rest ih =>
    intro acc h
    unfold rustLinesAux
    by_cases hc : c = '\n'
    · rw [if_pos hc]
      simp
    · rw [if_neg hc]
      exact ih (c :: acc) (Or.inl (by simp))

/-- Helper: joining a first row onto a nonempty remainder inserts one
line feed between them. -/
theorem joinRowsNl_cons (x : Row) (L : Buffer) (h : L ≠ []) :
    joinRowsNl (x :: L) = x ++ '\n' :: joinRowsNl L := by
  cases L with
  | nil => exact absurd rfl h
  | cons y ys => rfl

/-- Helper: writing back the lines the splitter produced, with a line
feed after every line but the last and a final line feed exactly when the
input ended in one, reproduces the input prefixed by the reversed
accumulator (for carriage-return-free input). -/
theorem rustLinesAux_save (s : List Char) : ∀ acc : List Char,
    '\r' ∉ s → '\r' ∉ acc →
    joinRowsNl (rustLinesAux acc s)
      ++ (if s.getLast? = some '\n' then ['\n'] else [])
      = acc.reverse ++ s := by
  induction s with
  | nil =>
    intro acc _ _
    unfold rustLinesAux
    by_cases ha : acc.isEmpty
    · rw [if_pos ha]
      have hn : acc = [] := List.isEmpty_iff.mp ha
      subst hn
      simp [joinRowsNl]
    · rw [if_neg ha]
      simp [joinRowsNl]
  | cons c rest ih =>
    intro acc hs hacc
    have hcr : c ≠ '\r' := by
      intro hx
      exact hs (by rw [← hx]; exact List.mem_cons_self c rest)
    have hrest : '\r' ∉ rest := fun hx => hs (List.mem_cons_of_mem _ hx)
    unfold rustLinesAux
    by_cases hc : c = '\n'
    · subst hc
      rw [if_pos rfl]
      rw [stripCr_of_not_mem _ (by simpa using hacc)]
      cases rest with
      | nil =>
        unfold rustLinesAux
        simp [joinRowsNl]
      | cons d rest' =>
        have hne := rustLinesAux_ne_nil (d :: rest') [] (Or.inr (by simp))
        have ihr := ih [] hrest (by simp)
        rw [joinRowsNl_cons _ _ hne, List.getLast?_cons_cons]
        rw [List.append_assoc, List.cons_append]
        simp only [List.reverse_nil, List.nil_append] at ihr
        rw [ihr]
    · rw [if_neg hc]
      have ihacc := ih (c :: acc) hrest (by
        intro hx
        rcases List.mem_cons.mp hx with h1 | h2
        · exact hcr h1.symm
        · exact hacc h2)
      have hnl : (if (c :: rest).getLast? = some '\n' then (['\n'] : List Char) else [])
          = (if rest.getLast? = some '\n' then ['\n'] else []) := by
        cases rest with
        | nil => simp [hc]
        | cons d r' => rw [List.getLast?_cons_cons]
      rw [hnl, ihacc]
      simp

/-- Helper: inserting rows one by one at successive indices starting at
the current end appends them in order. -/
theorem foldl_insert_row_enumFrom (L : List Row) : ∀ (b : Buffer) (n : Nat),
    b.length = n →
    (List.enumFrom n L).foldl (fun acc il => Buffer.insert_row acc il.1 il.2) b
      = b ++ L := by
  induction L with
  | nil =>
    intro b n _
    simp
  | cons x L ih =>
    intro b n h
    rw [List.enumFrom_cons, List.foldl_cons]
    have hins : Buffer.insert_row b n x = b ++ [x] := by
      unfold Buffer.insert_row
      rw [← h, List.take_length, List.drop_length, if_pos (Nat.le_refl _)]
    rw [hins, ih (b ++ [x]) (n + 1) (by simp [h])]
    simp

/-- C3 counterexample: the two-byte content CR LF ends in a newline, yet
open followed by save writes back a single LF: str::lines treats CR LF as
one terminator, so the carriage return is not reproduced. -/
theorem round_trip_fails_on_crlf :
    FileIo.save_content (FileIo.open_content ['\r', '\n']).1
        (FileIo.open_content ['\r', '\n']).2 ≠ ['\r', '\n'] ∧
    (['\r', '\n'] : List Char).getLast? = some '\n' ∧
    FileIo.save_content (FileIo.open_content ['\r', '\n']).1
        (FileIo.open_content ['\r', '\n']).2 = ['\n'] := by
  refine ⟨by decide, by decide, by decide⟩

/-- C3 (amended): for every file content free of carriage returns — in
particular each of the five enumerated shapes: ending in a newline,
lacking a final newline, completely empty, a single newline, and
multi-line with an empty last line — save after open reproduces the
original bytes exactly. -/
theorem fileio_open_save_round_trip (s : List Char) (h : '\r' ∉ s) :
    FileIo.save_content (FileIo.open_content s).1 (FileIo.open_content s).2 = s := by
  unfold FileIo.open_content FileIo.save_content
  dsimp only
  by_cases hs : s.isEmpty
  · have hn : s = [] := List.isEmpty_iff.mp hs
    subst hn
    simp [joinRowsNl]
  · rw [if_neg hs]
    have hbuf : (List.enum (rustLines s)).foldl
        (fun acc il => Buffer.insert_row acc il.1 il.2) ([] : Buffer) = rustLines s := by
      rw [List.enum_eq_enumFrom]
      exact foldl_insert_row_enumFrom (rustLines s) [] 0 rfl
    rw [hbuf]
    have hne : rustLines s ≠ [] :=
      rustLinesAux_ne_nil s [] (Or.inr (by simpa using hs))
    rw [if_neg (by simpa using hne)]
    have hsave := rustLinesAux_save s [] h (by simp)
    simp only [List.reverse_nil, List.nil_append] at hsave
    unfold rustLines
    by_cases hl : s.getLast? = some '\n'
    · rw [if_pos hl] at hsave
      simp only [hl, if_pos, decide_eq_true_eq]
      exact hsave
    · rw [if_neg hl] at hsave
      rw [if_neg (by simpa [decide_eq_true_eq] using hl)]
      simpa using hsave

/-- C3 witness: the round trip applied to the content a LF, which ends in
a newline and contains no carriage return. -/
theorem fileio_open_save_round_trip_witness :
    ('\r' ∉ (['a', '\n'] : List Char)) ∧
    FileIo.save_content (FileIo.open_content ['a', '\n']).1
        (FileIo.open_content ['a', '\n']).2 = ['a', '\n'] :=
  ⟨by decide, fileio_open_save_round_trip ['a', '\n'] (by decide)⟩

set_option maxHeartbeats 4000000 in
/-- C4: for every u16 cursor state, every editor_rows of at least 1 and
every buffer_len, running scroll twice in a row with no intervening
movement yields the same y and row_offset as running it once (the whole
cursor states are equal; x and col_offset are never touched by scroll).
The u16 arithmetic wraps modulo 65536 exactly as the embedded definition
does. -/
theorem scroll_idempotent (c : Cursor) (editor_rows buffer_len : Nat)
    (her : 1 ≤ editor_rows) (her2 : editor_rows < 65536)
    (hy : c.y < 65536) (hro : c.row_offset < 65536) :
    Cursor.scroll (Cursor.scroll c editor_rows buffer_len) editor_rows buffer_len
      = Cursor.scroll c editor_rows buffer_len := by
  by_cases hbl : buffer_len = 0
  · simp [Cursor.scroll, hbl]
  · unfold Cursor.scroll wadd wsub
    simp only [if_neg hbl]
    split_ifs <;> simp_all [Cursor.mk.injEq] <;> omega

/-- C4 witness: idempotence at the concrete cursor (x 1, y 30, offset 0)
with 24 editor rows over a 100-row buffer. -/
theorem scroll_idempotent_witness :
    1 ≤ 24 ∧ (24 : Nat) < 65536 ∧
    ({ x := 1, y := 30, row_offset := 0, col_offset := 0 } : Cursor).y < 65536 ∧
    ({ x := 1, y := 30, row_offset := 0, col_offset := 0 } : Cursor).row_offset < 65536 ∧
    Cursor.scroll (Cursor.scroll { x := 1, y := 30, row_offset := 0, col_offset := 0 } 24 100)
        24 100
      = Cursor.scroll { x := 1, y := 30, row_offset := 0, col_offset := 0 } 24 100 :=
  ⟨by decide, by decide, by decide, by decide,
    scroll_idempotent { x := 1, y := 30, row_offset := 0, col_offset := 0 } 24 100
      (by decide) (by decide) (by decide) (by decide)⟩

end Zim
